import Mathlib

/-!
Verification development for the sdr-watch repository.

The repository contains two implementations of the scanner core:
src/sdrwatch.py (the full scanner: CFAR, cycle policies) and
src/sdr_watch.py (a sibling implementation with the same structure).
Numeric code is embedded over ℚ; dB-to-linear conversion (10^(x/10)) and
log10, which are transcendental, are passed as explicit function
parameters where the source applies them, and concrete instantiations are
certified against the real-valued powers where a concrete evaluation is
needed.
-/

attribute [local semireducible] Rat.mul Rat.add Rat.inv Rat.sub

namespace SDRWatch

/-- Python 3 round() (banker's rounding, round-half-to-even) on a rational,
as used by sdrwatch.py detect_segments via int(round(f)). -/
def pyRound (q : ℚ) : ℤ :=
  let f := ⌊q⌋
  let r := q - f
  if r < 1/2 then f
  else if 1/2 < r then f + 1
  else if f % 2 = 0 then f else f + 1

/-- Python int() / numpy astype(int) truncation toward zero, as used by
Store.update_baseline (freqs_hz.astype(int)) and by sdr_watch.py
detect_segments (int(freqs_hz[i])). -/
def pyInt (q : ℚ) : ℤ :=
  if 0 ≤ q then ⌊q⌋ else ⌈q⌉

/-- Insert a rational into an already ascending list, keeping it ascending. -/
def insertSorted (x : ℚ) : List ℚ → List ℚ
  | [] => [x]
  | y :: ys => if x ≤ y then x :: y :: ys else y :: insertSorted x ys

/-- Ascending sort of a rational list (insertion sort).  numpy's sort is used
by np.median / np.quantile; only the sorted sequence of values matters, and
that is determined by the multiset of inputs. -/
def sortQ (l : List ℚ) : List ℚ := l.foldr insertSorted []

/-- numpy median: sort; middle element for odd length, mean of the two middle
elements for even length. -/
def npMedian (l : List ℚ) : ℚ :=
  let s := sortQ l
  let n := l.length
  if n % 2 = 1 then s.getD (n / 2) 0
  else (s.getD (n / 2 - 1) 0 + s.getD (n / 2) 0) / 2

/-- numpy quantile with the default linear interpolation:
h = q·(n−1), value = s[⌊h⌋] + (h − ⌊h⌋)·(s[⌊h⌋+1] − s[⌊h⌋]). -/
def npQuantile (l : List ℚ) (q : ℚ) : ℚ :=
  let s := sortQ l
  let n := l.length
  let h := q * ((n : ℚ) - 1)
  let lo := (⌊h⌋).toNat
  s.getD lo 0 + (h - (lo : ℚ)) * (s.getD (lo + 1) 0 - s.getD lo 0)

/-- robust_noise_floor_db (both files): median + 1.4826 · MAD. -/
def robust_noise_floor_db (psd_db : List ℚ) : ℚ :=
  let med := npMedian psd_db
  med + 14826/10000 * npMedian (psd_db.map (fun x => |x - med|))

/-- The Segment dataclass (sdrwatch.py lines 97-104; same fields in
sdr_watch.py).  Frequencies are the integer Hz fields of the dataclass. -/
structure Segment where
  f_low_hz : ℤ
  f_high_hz : ℤ
  f_center_hz : ℤ
  peak_db : ℚ
  noise_db : ℚ
  snr_db : ℚ
  deriving DecidableEq, Repr

/-- Inner while loop of detect_segments (sdrwatch.py lines 493-500,
sdr_watch.py lines 365-370): from position j with gap consecutive
below-threshold bins seen, advance while the current bin is above or fewer
than guard_bins below-bins have accumulated; return the final j.  The fuel
argument equals A.length − j, so fuel > 0 iff j < A.length, which is exactly
the loop's bound check; the recursion is otherwise a literal transcription. -/
def innerAux (A : List Bool) (G : ℕ) : ℕ → ℕ → ℕ → ℕ
  | 0, j, _ => j
  | fuel + 1, j, gap =>
    if A.getD j false ∨ gap < G then
      innerAux A G fuel (j + 1) (if A.getD j false then 0 else gap + 1)
    else j

/-- The inner while loop entered at position j with gap below-bins seen. -/
def innerScan (A : List Bool) (G : ℕ) (j gap : ℕ) : ℕ :=
  innerAux A G (A.length - j) j gap

/-- Outer while loop of detect_segments (sdrwatch.py lines 489-527,
sdr_watch.py lines 360-388): scan for the start of an above run, run the
inner loop, keep the run (start, end-exclusive) iff its width is at least
min_width_bins.  Out-of-range reads of the mask default to false, so once i
reaches A.length only the else branch fires and the fuel runs out with no
further output — the same termination as the source's i < N check. -/
def outerAux (A : List Bool) (G W : ℕ) : ℕ → ℕ → List (ℕ × ℕ)
  | 0, _ => []
  | fuel + 1, i =>
    if A.getD i false then
      let j := innerScan A G (i + 1) 0
      (if W ≤ j - i then [(i, j)] else []) ++ outerAux A G W fuel j
    else outerAux A G W fuel (i + 1)

/-- The kept runs (start, end-exclusive) of a mask, in scan order. -/
def outerScan (A : List Bool) (G W : ℕ) : List (ℕ × ℕ) :=
  outerAux A G W A.length 0

/-- First index of the maximum (np.argmax ties break to the first), helper. -/
def argmaxAux : List ℚ → ℕ → ℕ → ℚ → ℕ
  | [], _, bi, _ => bi
  | x :: xs, i, bi, bv =>
    if bv < x then argmaxAux xs (i + 1) i x else argmaxAux xs (i + 1) bi bv

/-- np.argmax on a rational list: first index attaining the maximum (0 on the
empty list, which the source never hits: runs are nonempty). -/
def listArgmax : List ℚ → ℕ
  | [] => 0
  | x :: xs => argmaxAux xs 1 0 x

/-- Segment built from a kept run by sdrwatch.py lines 504-524: peak bin is
the argmax of psd over the run, noise is read at the peak bin,
f_low/f_high at the run's first/last bin and f_center at the geometric
midpoint index (start_i + end_i) // 2, all three through int(round(·)). -/
def segOfRun (freqs psd noise : List ℚ) (r : ℕ × ℕ) : Segment :=
  let sl := (psd.drop r.1).take (r.2 - r.1)
  let peak := r.1 + listArgmax sl
  let peakDb := psd.getD peak 0
  let noiseDb := noise.getD peak 0
  { f_low_hz := pyRound (freqs.getD r.1 0)
    f_high_hz := pyRound (freqs.getD (r.2 - 1) 0)
    f_center_hz := pyRound (freqs.getD ((r.1 + r.2) / 2) 0)
    peak_db := peakDb
    noise_db := noiseDb
    snr_db := peakDb - noiseDb }

/-- Segment built from a kept run by sdr_watch.py lines 373-385: same run
structure, but f_center is the frequency at the peak bin, the noise reference
is the scalar global floor, and the integer fields use int(·) truncation. -/
def segOfRunSW (freqs psd : List ℚ) (nf : ℚ) (r : ℕ × ℕ) : Segment :=
  let sl := (psd.drop r.1).take (r.2 - r.1)
  let peak := r.1 + listArgmax sl
  let peakDb := psd.getD peak 0
  { f_low_hz := pyInt (freqs.getD r.1 0)
    f_high_hz := pyInt (freqs.getD (r.2 - 1) 0)
    f_center_hz := pyInt (freqs.getD peak 0)
    peak_db := peakDb
    noise_db := nf
    snr_db := peakDb - nf }

/-- Segment formation from an already computed above/below mask and per-bin
noise list (the part of sdrwatch.py detect_segments after the mask branch,
lines 487-529); used by both the global-floor and the CFAR branch. -/
def detectSegmentsFromMask (freqs psd noise : List ℚ) (A : List Bool)
    (G W : ℕ) : List Segment :=
  (outerScan A G W).map (segOfRun freqs psd noise)

/-- detect_segments of sdrwatch.py (lines 454-529) in its global-floor branch
(cfar_mode = "off"): mask = psd > floor + threshold, per-bin noise is the
constant global floor.  Returns (segments, above mask, noise list) like the
source. -/
def detect_segments (freqs psd : List ℚ) (thresh : ℚ) (G W : ℕ) :
    List Segment × List Bool × List ℚ :=
  if psd.length = 0 then ([], [], []) else
  let nf := robust_noise_floor_db psd
  let above := psd.map (fun x => decide (nf + thresh < x))
  let noise := List.replicate psd.length nf
  (detectSegmentsFromMask freqs psd noise above G W, above, noise)

/-- detect_segments of sdr_watch.py (lines 351-389): always the global floor,
peak-centered segments, int(·) truncation. -/
def detect_segments_sw (freqs psd : List ℚ) (thresh : ℚ) (G W : ℕ) :
    List Segment :=
  let nf := robust_noise_floor_db psd
  let above := psd.map (fun x => decide (nf + thresh < x))
  (outerScan above G W).map (segOfRunSW freqs psd nf)

/-- Mask of bins above threshold under the global robust floor, exactly the
cfar off branch of detect_segments (sdrwatch.py lines 480-485):
above = psd_db > nf + thresh_db. -/
def globalFloorAbove (psd_db : List ℚ) (thresh : ℚ) : List Bool :=
  let nf := robust_noise_floor_db psd_db
  psd_db.map (fun x => decide (nf + thresh < x))

/-- Above-mask of cfar_os_mask (sdrwatch.py lines 416-447).  The source
converts dB to linear power with 10^(x/10); that conversion (and the alpha
factor 10^(alpha_db/10)) is the function parameter e, an order-embedding the
code applies pointwise.  Degenerate window (2·train + 2·guard + 1 ≤ 1, i.e.
no training cells): per-bin noise is the plain global median of psd_db and a
bin is above iff psd_db > median + alpha_db.  Otherwise the linear psd is
edge-padded by train + guard on each side, each bin's window of width
2·train + 2·guard + 1 is taken, the guard + CUT cells (indices
train .. train + 2·guard) are masked out, the noise is the clipped
quantile of the remaining 2·train training cells, and the bin is above iff
its linear power exceeds noise·e(alpha_db).  The source's second return
value (noise in dB, a pointwise 10·log10 of the linear noise) is omitted
here; no claim refers to it. -/
def cfar_os_mask (e : ℚ → ℚ) (psd_db : List ℚ) (train guard : ℕ)
    (quantile alpha_db : ℚ) : List Bool :=
  let N := psd_db.length
  if N = 0 then [] else
  let psd_lin := psd_db.map e
  let win := 2 * train + 2 * guard + 1
  if win ≤ 1 then
    psd_db.map (fun x => decide (npMedian psd_db + alpha_db < x))
  else
    let pad := train + guard
    let padded := List.replicate pad (psd_lin.getD 0 0) ++ psd_lin ++
      List.replicate pad (psd_lin.getD (N - 1) 0)
    let q := max (1/1000000) (min quantile (1 - 1/1000000))
    (List.range N).map (fun i =>
      let w := (padded.drop i).take win
      let cells := w.take train ++ w.drop (train + 2 * guard + 1)
      decide (npQuantile cells q * e alpha_db < psd_lin.getD i 0))

/-- Exact value of the dB-to-linear conversion 10^(d/10) at arguments that
are integer multiples of 10 dB (certified against the real-valued power in
the theorems that use it); used to instantiate the conversion parameter of
cfar_os_mask on concrete inputs. -/
def exp10tens (d : ℚ) : ℚ := (10 : ℚ) ^ ⌊d / 10⌋

/-- A baseline row (the non-key columns of the baseline table:
ema_occ, ema_power_db, total_obs, hits).  last_seen_utc is a wall-clock
string refreshed on every update and is not modelled.  The source's
None-coalescing reads (row values `or 0`) are identity for every row the
program itself writes, so fields are total here. -/
structure Row where
  ema_occ : ℚ
  ema_power_db : ℚ
  total_obs : ℕ
  hits : ℕ
  deriving DecidableEq, Repr

/-- The baseline table keyed by bin_hz, as an association list. -/
abbrev Baseline : Type := List (ℤ × Row)

/-- The empty baseline table. -/
def emptyBaseline : Baseline := []

/-- SELECT of the row for a bin_hz key. -/
def lookupB (b : Baseline) (k : ℤ) : Option Row :=
  match b with
  | [] => none
  | (k', v) :: t => if k' = k then some v else lookupB t k

/-- INSERT OR REPLACE of the row for a bin_hz key. -/
def insertB (k : ℤ) (v : Row) (b : Baseline) : Baseline :=
  match b with
  | [] => [(k, v)]
  | (k', v') :: t => if k' = k then (k, v) :: t else (k', v') :: insertB k v t

/-- One bin's update inside Store.update_baseline (sdrwatch.py lines
283-308): first sight inserts ema_occ = occ, ema_power_db = p, total_obs = 1,
hits = occ; a revisit forms the EMAs with factor ema_alpha and increments the
counters. -/
def updateRow (prev : Option Row) (p : ℚ) (occ : Bool) (a : ℚ) : Row :=
  match prev with
  | none =>
      { ema_occ := if occ then 1 else 0
        ema_power_db := p
        total_obs := 1
        hits := if occ then 1 else 0 }
  | some r =>
      { ema_occ := (1 - a) * r.ema_occ + a * (if occ then 1 else 0)
        ema_power_db := (1 - a) * r.ema_power_db + a * p
        total_obs := r.total_obs + 1
        hits := r.hits + (if occ then 1 else 0) }

/-- Store.update_baseline (sdrwatch.py lines 279-308): iterate over
zip(freqs_hz.astype(int), psd_db, occupied_mask) and upsert each bin's row.
Note the keys are the truncated frequencies. -/
def update_baseline (b : Baseline) (freqs psd : List ℚ) (mask : List Bool)
    (ema_alpha : ℚ := 1/20) : Baseline :=
  (List.zip (freqs.map pyInt) (List.zip psd mask)).foldl
    (fun acc e => insertB e.1 (updateRow (lookupB acc e.1) e.2.1 e.2.2 ema_alpha) acc)
    b

/-- Store.baseline_occ (sdrwatch.py lines 310-314): ema_occ of the row at
bin_hz = f_center_hz, if any. -/
def baseline_occ (b : Baseline) (f_center_hz : ℤ) : Option ℚ :=
  (lookupB b f_center_hz).map (fun r => r.ema_occ)

/-- The is-new predicate of _do_one_sweep (sdrwatch.py line 684):
is_new = (occ is not None and occ < new_ema_occ). -/
def isNewB (occ : Option ℚ) (thr : ℚ) : Bool :=
  match occ with
  | none => false
  | some v => decide (v < thr)

/-- A whole sweep window's worth of baseline input:
(rf_freqs, psd_db, occupied_mask). -/
abbrev Window : Type := List ℚ × List ℚ × List Bool

/-- Fold a sequence of per-window baseline updates, as successive sweep
windows do in _do_one_sweep. -/
def applyWindows (b : Baseline) (ws : List Window) (a : ℚ) : Baseline :=
  ws.foldl (fun acc w => update_baseline acc w.1 w.2.1 w.2.2 a) b

/-- The spec's per-row invariant: ema_occ within [0,1] and
hits ≤ total_obs. -/
def RowInv (r : Row) : Prop :=
  0 ≤ r.ema_occ ∧ r.ema_occ ≤ 1 ∧ r.hits ≤ r.total_obs

/-- Row-level invariant of the baseline table claimed by the spec, on every
stored row. -/
def BaselineInv (b : Baseline) : Prop :=
  ∀ k r, lookupB b k = some r → RowInv r

/-- Row evolution of a bin that is observed occupied on n consecutive
updates (power reading p each time). -/
def occupiedIter (a p : ℚ) (r : Row) : ℕ → Row
  | 0 => r
  | n + 1 => updateRow (some (occupiedIter a p r n)) p true a

/-- The body of run()'s cycle loop (sdrwatch.py lines 757-776) specialized
to the repeat-N policy (no --loop, no --duration, so both duration checks
are vacuous): each iteration performs one full sweep, then decrements
sweeps_remaining and stops once it is ≤ 0.  Returns the number of sweeps
performed.  The fuel is an upper bound on the number of iterations
(remaining decreases by one per iteration and the loop stops at ≤ 0, so
toNat + 1 iterations always suffice); fuel 0 is unreachable from
runRepeatCycles. -/
def repeatAux : ℕ → ℤ → ℕ
  | 0, _ => 0
  | fuel + 1, remaining =>
      1 + (if remaining - 1 ≤ 0 then 0 else repeatAux fuel (remaining - 1))

/-- Number of full sweep cycles run() executes under --repeat n
(sweeps_remaining is initialized to n at line 751). -/
def runRepeatCycles (n : ℤ) : ℕ := repeatAux (n.toNat + 1) n

/-- Collect the sample slices samples[s : s+seg] for the listed start
offsets, stopping at the first slice shorter than seg — the break in both
fallback periodogram loops (sdrwatch.py lines 551-558, sdr_watch.py lines
421-427). -/
def collectSegs (samples : List (ℚ × ℚ)) (seg : ℕ) : List ℕ → List (List (ℚ × ℚ))
  | [] => []
  | s :: rest =>
      let x := (samples.drop s).take seg
      if x.length < seg then [] else x :: collectSegs samples seg rest

/-- Start offsets of sdrwatch.py's fallback loop (lines 551-553):
for i in range(avg), start = i * seg — consecutive, non-overlapping. -/
def nonOverlapStarts (seg avg : ℕ) : List ℕ := (List.range avg).map (· * seg)

/-- The averaging windows sdrwatch.py compute_psd_db extracts (its SciPy
branch likewise passes noverlap = 0 to welch). -/
def sdrwatchWindows (samples : List (ℚ × ℚ)) (seg avg : ℕ) : List (List (ℚ × ℚ)) :=
  collectSegs samples seg (nonOverlapStarts seg avg)

/-- Start offsets of sdr_watch.py's fallback loop (line 421):
range(0, max(len(samples) - seg + 1, 1), seg // 2) — stride seg // 2,
i.e. 50% overlap.  (For seg ≤ 1 the Python range would raise on step 0;
theorems about this assume 2 ≤ seg.) -/
def swStarts (len seg : ℕ) : List ℕ :=
  let step := seg / 2
  let bound := max (len - seg + 1) 1
  List.range' 0 ((bound + step - 1) / step) step

/-- The averaging windows sdr_watch.py compute_psd_db extracts (its SciPy
branch likewise passes noverlap = fft_size // 2 to welch). -/
def swWindows (samples : List (ℚ × ℚ)) (seg : ℕ) : List (List (ℚ × ℚ)) :=
  collectSegs samples seg (swStarts samples.length seg)

/-- np.fft.fftshift: roll by length // 2, moving the upper half-spectrum to
the front. -/
def fftshiftL (x : List (ℚ × ℚ)) : List (ℚ × ℚ) :=
  x.drop ((x.length + 1) / 2) ++ x.take ((x.length + 1) / 2)

/-- One segment's contribution in the fallback periodogram (both files):
Pxx = |fftshift(fft(x · hanning(seg)))|² / (seg · samp_rate).  The Hann
window coefficients and the FFT itself are transcendental and enter as the
function parameters hann and fftF; complex samples are (re, im) pairs and
the squared magnitude is re² + im². -/
def perSegPsd (fs : ℚ) (n : ℕ) (hann : ℕ → List ℚ)
    (fftF : List (ℚ × ℚ) → List (ℚ × ℚ)) (x : List (ℚ × ℚ)) : List ℚ :=
  (fftshiftL (fftF (List.zipWith (fun w c => (w * c.1, w * c.2)) (hann n) x))).map
    (fun c => (c.1 ^ 2 + c.2 ^ 2) / ((n : ℚ) * fs))

/-- np.mean(np.vstack(windows), axis=0): pointwise mean over the collected
rows. -/
def meanCols : List (List ℚ) → List ℚ
  | [] => []
  | h :: t =>
      (t.foldl (fun acc r => List.zipWith (· + ·) acc r) h).map
        (fun s => s / ((t.length + 1 : ℕ) : ℚ))

/-- np.linspace(a, b, n, endpoint=False): n values from a with spacing
(b − a)/n. -/
def linspaceQ (a b : ℚ) (n : ℕ) : List ℚ :=
  (List.range n).map (fun (k : ℕ) => a + (k : ℚ) * ((b - a) / (n : ℚ)))

/-- db10 (both files): 10 · log10(max(x, 1e-20)), with the transcendental
log10 as a function parameter. -/
def db10q (log10 : ℚ → ℚ) (p : ℚ) : ℚ := 10 * log10 (max p (1/10 ^ 20))

/-- Fallback branch of sdrwatch.py compute_psd_db (lines 547-567):
non-overlapping Hann-windowed segments, per-segment scaled periodogram,
pointwise average, centered frequency axis from linspace, then db10.
If no full segment fits, a single segment over samples[:fft_size] is used
(with numpy this branch raises on the window shape mismatch whenever
len(samples) < fft_size; it is unreachable under the hypotheses of the
theorems below). -/
def compute_psd_db (samples : List (ℚ × ℚ)) (fs : ℚ) (n avg : ℕ)
    (hann : ℕ → List ℚ) (fftF : List (ℚ × ℚ) → List (ℚ × ℚ))
    (log10 : ℚ → ℚ) : List ℚ × List ℚ :=
  let ws := (sdrwatchWindows samples n avg).map (perSegPsd fs n hann fftF)
  let ws := if ws.isEmpty then [perSegPsd fs n hann fftF (samples.take n)] else ws
  let psd := meanCols ws
  let freqs := linspaceQ (-(fs/2)) (fs/2) psd.length
  (freqs, psd.map (db10q log10))

/-- Fallback branch of sdr_watch.py compute_psd_db (lines 417-436): same
pipeline but with the 50%-overlapping segmentation. -/
def compute_psd_db_sw (samples : List (ℚ × ℚ)) (fs : ℚ) (n : ℕ)
    (hann : ℕ → List ℚ) (fftF : List (ℚ × ℚ) → List (ℚ × ℚ))
    (log10 : ℚ → ℚ) : List ℚ × List ℚ :=
  let ws := (swWindows samples n).map (perSegPsd fs n hann fftF)
  let ws := if ws.isEmpty then [perSegPsd fs n hann fftF (samples.take n)] else ws
  let psd := meanCols ws
  let freqs := linspaceQ (-(fs/2)) (fs/2) psd.length
  (freqs, psd.map (db10q log10))

/-- Modelled from the spec (section 4.1): the claimed segmentation —
fft_size-length segments at 50% overlap, i.e. all full slices starting at
multiples of fft_size/2.  Stated only to be compared with the segmentation
the source actually performs. -/
def specFiftyPercentWindows (samples : List (ℚ × ℚ)) (n : ℕ) : List (List (ℚ × ℚ)) :=
  (List.range ((samples.length - n) / (n / 2) + 1)).map
    (fun i => (samples.drop (i * (n / 2))).take n)

/-- The mask shape of claim C3: an above run of length a, a gap of g
below bins, an above run of length b. -/
def shapedMask (a g b : ℕ) : List Bool :=
  List.replicate a true ++ List.replicate g false ++ List.replicate b true

end SDRWatch

namespace SDRWatch

theorem le_pyRound (q : ℚ) : ⌊q⌋ ≤ pyRound q := by
  unfold pyRound; dsimp only; split_ifs <;> omega

theorem pyRound_le (q : ℚ) : pyRound q ≤ ⌊q⌋ + 1 := by
  unfold pyRound; dsimp only; split_ifs <;> omega

theorem pyRound_mono {q r : ℚ} (h : q ≤ r) : pyRound q ≤ pyRound r := by
  have hf : ⌊q⌋ ≤ ⌊r⌋ := Int.floor_le_floor h
  rcases eq_or_lt_of_le hf with he | hlt
  · have h1 : q - (⌊q⌋ : ℚ) ≤ r - (⌊q⌋ : ℚ) := by linarith
    unfold pyRound
    dsimp only
    rw [← he]
    split_ifs <;> first | omega | (exfalso; linarith)
  · exact le_trans (pyRound_le q)
      (le_trans (Int.lt_iff_add_one_le.mp hlt) (le_pyRound r))

theorem getD_true_lt {A : List Bool} {i : ℕ} (h : A.getD i false = true) :
    i < A.length := by
  by_contra hn
  rw [List.getD_eq_default _ _ (le_of_not_lt hn)] at h
  exact Bool.false_ne_true h

theorem le_innerAux (A : List Bool) (G : ℕ) :
    ∀ fuel j gap, j ≤ innerAux A G fuel j gap := by
  intro fuel
  induction fuel with
  | zero => intro j gap; exact le_refl j
  | succ f ih =>
      intro j gap
      simp only [innerAux]
      split
      · exact le_trans (Nat.le_succ j) (ih (j + 1) _)
      · exact le_refl j

theorem innerAux_le (A : List Bool) (G : ℕ) :
    ∀ fuel j gap, innerAux A G fuel j gap ≤ j + fuel := by
  intro fuel
  induction fuel with
  | zero => intro j gap; simp [innerAux]
  | succ f ih =>
      intro j gap
      simp only [innerAux]
      split
      · exact le_trans (ih (j + 1) _) (by omega)
      · omega

theorem le_innerScan (A : List Bool) (G j gap : ℕ) :
    j ≤ innerScan A G j gap :=
  le_innerAux A G _ j gap

theorem innerScan_le (A : List Bool) (G : ℕ) {j : ℕ} (h : j ≤ A.length)
    (gap : ℕ) : innerScan A G j gap ≤ A.length :=
  le_trans (innerAux_le A G _ j gap) (by omega)

theorem innerScan_step (A : List Bool) (G : ℕ) {j : ℕ} (h : j < A.length)
    (gap : ℕ) :
    innerScan A G j gap =
      if A.getD j false ∨ gap < G then
        innerScan A G (j + 1) (if A.getD j false then 0 else gap + 1)
      else j := by
  unfold innerScan
  have hf : A.length - j = (A.length - (j + 1)) + 1 := by omega
  rw [hf]
  simp only [innerAux]

theorem innerScan_stop_off (A : List Bool) (G : ℕ) {j : ℕ}
    (h : A.length ≤ j) (gap : ℕ) : innerScan A G j gap = j := by
  unfold innerScan
  have hf : A.length - j = 0 := by omega
  rw [hf]
  simp only [innerAux]

theorem innerScan_true (A : List Bool) (G : ℕ) {j : ℕ}
    (h : A.getD j false = true) (gap : ℕ) :
    innerScan A G j gap = innerScan A G (j + 1) 0 := by
  rw [innerScan_step A G (getD_true_lt h) gap, h]
  simp

theorem innerScan_false_cont (A : List Bool) (G : ℕ) {j gap : ℕ}
    (hj : j < A.length) (h : A.getD j false = false) (hg : gap < G) :
    innerScan A G j gap = innerScan A G (j + 1) (gap + 1) := by
  rw [innerScan_step A G hj gap, h]
  simp [hg]

theorem innerScan_false_stop (A : List Bool) (G : ℕ) {j gap : ℕ}
    (h : A.getD j false = false) (hg : G ≤ gap) :
    innerScan A G j gap = j := by
  by_cases hj : j < A.length
  · rw [innerScan_step A G hj gap, h]
    simp [Nat.not_lt.mpr hg]
  · exact innerScan_stop_off A G (le_of_not_lt hj) gap

theorem innerScan_trues (A : List Bool) (G : ℕ) :
    ∀ k j, (∀ t, t < k → A.getD (j + t) false = true) →
      innerScan A G j 0 = innerScan A G (j + k) 0 := by
  intro k
  induction k with
  | zero => intro j _; rfl
  | succ m ih =>
      intro j h
      have h0 : A.getD j false = true := by
        have := h 0 (Nat.succ_pos m); simpa using this
      rw [innerScan_true A G h0 0]
      have := ih (j + 1) (fun t ht => by
        have := h (t + 1) (by omega)
        simpa [Nat.add_assoc, Nat.add_comm 1 t] using this)
      rw [this]
      ring_nf

theorem innerScan_trues_entering (A : List Bool) (G : ℕ) {k : ℕ} (hk : 0 < k)
    (j gap : ℕ) (h : ∀ t, t < k → A.getD (j + t) false = true) :
    innerScan A G j gap = innerScan A G (j + k) 0 := by
  have h0 : A.getD j false = true := by
    have := h 0 hk; simpa using this
  rw [innerScan_true A G h0 gap]
  have := innerScan_trues A G (k - 1) (j + 1) (fun t ht => by
    have := h (t + 1) (by omega)
    simpa [Nat.add_assoc, Nat.add_comm 1 t] using this)
  rw [this]
  congr 1
  omega

theorem innerScan_falses_bridge (A : List Bool) (G : ℕ) :
    ∀ m j gap, (∀ t, t < m → A.getD (j + t) false = false) →
      j + m ≤ A.length → gap + m ≤ G →
      innerScan A G j gap = innerScan A G (j + m) (gap + m) := by
  intro m
  induction m with
  | zero => intro j gap _ _ _; rfl
  | succ mm ih =>
      intro j gap h hlen hg
      have h0 : A.getD j false = false := by
        have := h 0 (Nat.succ_pos mm); simpa using this
      have hj : j < A.length := by omega
      rw [innerScan_false_cont A G hj h0 (by omega)]
      have := ih (j + 1) (gap + 1) (fun t ht => by
        have := h (t + 1) (by omega)
        simpa [Nat.add_assoc, Nat.add_comm 1 t] using this) (by omega) (by omega)
      rw [this]
      congr 1 <;> omega

theorem outerAux_mem (A : List Bool) (G W : ℕ) :
    ∀ fuel i r, r ∈ outerAux A G W fuel i →
      i ≤ r.1 ∧ r.1 < r.2 ∧ r.2 ≤ A.length ∧ W ≤ r.2 - r.1 := by
  intro fuel
  induction fuel with
  | zero => intro i r hr; simp [outerAux] at hr
  | succ f ih =>
      intro i r hr
      simp only [outerAux] at hr
      by_cases hi : A.getD i false = true
      · rw [if_pos hi] at hr
        have hilt : i < A.length := getD_true_lt hi
        have hj1 : i + 1 ≤ innerScan A G (i + 1) 0 := le_innerScan A G (i + 1) 0
        have hj2 : innerScan A G (i + 1) 0 ≤ A.length :=
          innerScan_le A G (by omega) 0
        rcases List.mem_append.mp hr with hh | ht
        · by_cases hw : W ≤ innerScan A G (i + 1) 0 - i
          · rw [if_pos hw] at hh
            simp at hh
            subst hh
            exact ⟨le_refl i, by omega, hj2, hw⟩
          · rw [if_neg hw] at hh
            simp at hh
        · have := ih (innerScan A G (i + 1) 0) r ht
          exact ⟨by omega, this.2.1, this.2.2.1, this.2.2.2⟩
      · rw [if_neg hi] at hr
        have := ih (i + 1) r hr
        exact ⟨by omega, this.2.1, this.2.2.1, this.2.2.2⟩

theorem outerScan_mem (A : List Bool) (G W : ℕ) {r : ℕ × ℕ}
    (hr : r ∈ outerScan A G W) :
    r.1 < r.2 ∧ r.2 ≤ A.length ∧ W ≤ r.2 - r.1 := by
  have := outerAux_mem A G W A.length 0 r hr
  exact ⟨this.2.1, this.2.2.1, this.2.2.2⟩

theorem outerAux_chain (A : List Bool) (G W : ℕ) :
    ∀ fuel i, List.Chain' (fun r s => r.2 ≤ s.1) (outerAux A G W fuel i) := by
  intro fuel
  induction fuel with
  | zero => intro i; simp [outerAux]
  | succ f ih =>
      intro i
      simp only [outerAux]
      by_cases hi : A.getD i false = true
      · rw [if_pos hi]
        by_cases hw : W ≤ innerScan A G (i + 1) 0 - i
        · rw [if_pos hw]
          simp only [List.singleton_append]
          refine List.chain'_cons'.mpr ⟨?_, ih _⟩
          intro s hs
          have hmem : s ∈ outerAux A G W f (innerScan A G (i + 1) 0) :=
            List.mem_of_mem_head? hs
          exact (outerAux_mem A G W f _ s hmem).1
        · rw [if_neg hw]
          simpa using ih _
      · rw [if_neg hi]
        exact ih _

theorem outerScan_chain (A : List Bool) (G W : ℕ) :
    List.Chain' (fun r s => r.2 ≤ s.1) (outerScan A G W) :=
  outerAux_chain A G W A.length 0

theorem sorted_getD_mono {l : List ℚ} (hs : List.Sorted (· ≤ ·) l)
    {i j : ℕ} (hij : i ≤ j) (hj : j < l.length) :
    l.getD i 0 ≤ l.getD j 0 := by
  rcases eq_or_lt_of_le hij with he | hlt
  · subst he; exact le_refl _
  · have hi : i < l.length := lt_trans hlt hj
    rw [List.getD_eq_getElem l 0 hi, List.getD_eq_getElem l 0 hj]
    exact List.pairwise_iff_getElem.mp hs i j hi hj hlt

theorem chain'_map_mem {α β : Type _} (f : α → β) (R : β → β → Prop)
    (S : α → α → Prop) :
    ∀ l : List α, List.Chain' S l →
      (∀ a b, a ∈ l → b ∈ l → S a b → R (f a) (f b)) →
      List.Chain' R (l.map f) := by
  intro l
  induction l with
  | nil => intro _ _; simp
  | cons a t ih =>
      intro hc himp
      cases t with
      | nil => simp
      | cons b t2 =>
          rw [List.map_cons, List.map_cons]
          rw [List.chain'_cons] at hc
          refine List.chain'_cons.mpr
            ⟨himp a b (by simp) (by simp) hc.1, ?_⟩
          have := ih hc.2 (fun x y hx hy hxy =>
            himp x y (by simp [hx]) (by simp [hy]) hxy)
          simpa using this

/-- Claim C9: every Segment produced by detect_segments from an ascending
freqs_hz array satisfies f_low_hz ≤ f_center_hz ≤ f_high_hz, and the
returned segment list is ordered by ascending frequency (each segment's
f_high_hz is at most the next one's f_low_hz).  Stated on the common
segment-formation core, so it covers the global-floor branch and the CFAR
branch alike (both only differ in the mask and noise inputs). -/
theorem C9_segment_invariants (freqs psd noise : List ℚ) (A : List Bool)
    (G W : ℕ) (hf : freqs.length = psd.length) (hA : A.length = psd.length)
    (hs : List.Sorted (· ≤ ·) freqs) :
    (∀ seg ∈ detectSegmentsFromMask freqs psd noise A G W,
        seg.f_low_hz ≤ seg.f_center_hz ∧ seg.f_center_hz ≤ seg.f_high_hz) ∧
    List.Chain' (fun s t => s.f_high_hz ≤ t.f_low_hz)
      (detectSegmentsFromMask freqs psd noise A G W) := by
  constructor
  · intro seg hseg
    obtain ⟨r, hr, heq⟩ := List.mem_map.mp hseg
    obtain ⟨h12, h2len, _⟩ := outerScan_mem A G W hr
    have hlen : r.2 ≤ freqs.length := by omega
    subst heq
    simp only [segOfRun]
    constructor
    · exact pyRound_mono (sorted_getD_mono hs (by omega) (by omega))
    · exact pyRound_mono (sorted_getD_mono hs (by omega) (by omega))
  · unfold detectSegmentsFromMask
    apply chain'_map_mem _ _ _ (outerScan A G W) (outerScan_chain A G W)
    intro r s hrm hsm hrel
    obtain ⟨hr12, hr2, _⟩ := outerScan_mem A G W hrm
    obtain ⟨hs12, hs2, _⟩ := outerScan_mem A G W hsm
    simp only [segOfRun]
    exact pyRound_mono (sorted_getD_mono hs (by omega) (by omega))

/-- Witness for C9 at the worked-example window (global-floor mask of
psd = [−90,−90,−90,−40,−40,−90,−90] with threshold 10). -/
theorem C9_segment_invariants_witness :
    ((⟨100000000, 101000000, 101000000, -40, -90, 50⟩ : Segment).f_low_hz ≤
        (⟨100000000, 101000000, 101000000, -40, -90, 50⟩ : Segment).f_center_hz ∧
      (⟨100000000, 101000000, 101000000, -40, -90, 50⟩ : Segment).f_center_hz ≤
        (⟨100000000, 101000000, 101000000, -40, -90, 50⟩ : Segment).f_high_hz) ∧
    List.Chain' (fun s t => s.f_high_hz ≤ t.f_low_hz)
      (detectSegmentsFromMask
        [97000000, 98000000, 99000000, 100000000, 101000000, 102000000, 103000000]
        [-90, -90, -90, -40, -40, -90, -90]
        (List.replicate 7 (-90))
        [false, false, false, true, true, false, false] 0 2) := by
  have h := C9_segment_invariants
    [97000000, 98000000, 99000000, 100000000, 101000000, 102000000, 103000000]
    [-90, -90, -90, -40, -40, -90, -90]
    (List.replicate 7 (-90))
    [false, false, false, true, true, false, false] 0 2
    (by decide) (by decide) (by decide)
  exact ⟨h.1 ⟨100000000, 101000000, 101000000, -40, -90, 50⟩ (by decide), h.2⟩

/-- Claim C7: detect_segments never emits a segment from a run shorter than
min_width_bins — every returned segment arises from a kept run of the above
mask whose width is at least min_width_bins (shorter runs produce nothing). -/
theorem C7_min_width (freqs psd : List ℚ) (thresh : ℚ) (G W : ℕ)
    (seg : Segment) (h : seg ∈ (detect_segments freqs psd thresh G W).1) :
    ∃ r, r ∈ outerScan (detect_segments freqs psd thresh G W).2.1 G W ∧
      W ≤ r.2 - r.1 ∧
      seg = segOfRun freqs psd ((detect_segments freqs psd thresh G W).2.2) r := by
  by_cases h0 : psd.length = 0
  · simp [detect_segments, h0] at h
  · simp only [detect_segments, if_neg h0] at h ⊢
    obtain ⟨r, hr, heq⟩ := List.mem_map.mp h
    exact ⟨r, hr, (outerScan_mem _ G W hr).2.2, heq.symm⟩

/-- Witness for C7 at the worked-example input. -/
theorem C7_min_width_witness :
    (⟨100000000, 101000000, 101000000, -40, -90, 50⟩ : Segment) ∈
      (detect_segments
        [97000000, 98000000, 99000000, 100000000, 101000000, 102000000, 103000000]
        [-90, -90, -90, -40, -40, -90, -90] 10 0 2).1 ∧
    ∃ r, r ∈ outerScan (detect_segments
        [97000000, 98000000, 99000000, 100000000, 101000000, 102000000, 103000000]
        [-90, -90, -90, -40, -40, -90, -90] 10 0 2).2.1 0 2 ∧
      2 ≤ r.2 - r.1 ∧
      (⟨100000000, 101000000, 101000000, -40, -90, 50⟩ : Segment) =
        segOfRun
          [97000000, 98000000, 99000000, 100000000, 101000000, 102000000, 103000000]
          [-90, -90, -90, -40, -40, -90, -90]
          ((detect_segments
            [97000000, 98000000, 99000000, 100000000, 101000000, 102000000, 103000000]
            [-90, -90, -90, -40, -40, -90, -90] 10 0 2).2.2) r :=
  ⟨by decide, C7_min_width _ _ 10 0 2 _ (by decide)⟩

theorem getD_replicate_of_lt {α : Type _} (x d : α) {n i : ℕ} (h : i < n) :
    (List.replicate n x).getD i d = x := by
  rw [List.getD_eq_getElem _ _ (by simpa using h)]
  simp

theorem shapedMask_length (a g b : ℕ) :
    (shapedMask a g b).length = a + g + b := by
  simp [shapedMask]
  omega

theorem shapedMask_getD_lo {a g b i : ℕ} (h : i < a) :
    (shapedMask a g b).getD i false = true := by
  unfold shapedMask
  rw [List.append_assoc]
  rw [List.getD_append _ _ _ _ (by simpa using h)]
  exact getD_replicate_of_lt _ _ h

theorem shapedMask_getD_mid {a g b i : ℕ} (h1 : a ≤ i) (h2 : i < a + g) :
    (shapedMask a g b).getD i false = false := by
  unfold shapedMask
  rw [List.getD_append _ _ _ _ (by simp; omega)]
  rw [List.getD_append_right _ _ _ _ (by simpa using h1)]
  refine getD_replicate_of_lt _ _ ?_
  simp
  omega

theorem shapedMask_getD_hi {a g b i : ℕ} (h1 : a + g ≤ i) (h2 : i < a + g + b) :
    (shapedMask a g b).getD i false = true := by
  unfold shapedMask
  rw [List.getD_append_right _ _ _ _ (by simp; omega)]
  refine getD_replicate_of_lt _ _ ?_
  simp
  omega

theorem innerScan_shaped_merge {a g b G : ℕ} (ha : 1 ≤ a) (hb : 1 ≤ b)
    (hgG : g ≤ G) :
    innerScan (shapedMask a g b) G 1 0 = a + g + b := by
  have hN : (shapedMask a g b).length = a + g + b := shapedMask_length a g b
  have s1 : innerScan (shapedMask a g b) G 1 0 =
      innerScan (shapedMask a g b) G a 0 := by
    have := innerScan_trues (shapedMask a g b) G (a - 1) 1
      (fun t ht => shapedMask_getD_lo (by omega))
    rw [this]
    congr 1
    omega
  have s2 : innerScan (shapedMask a g b) G a 0 =
      innerScan (shapedMask a g b) G (a + g) (0 + g) := by
    exact innerScan_falses_bridge (shapedMask a g b) G g a 0
      (fun t ht => shapedMask_getD_mid (by omega) (by omega))
      (by omega) (by omega)
  have s3 : innerScan (shapedMask a g b) G (a + g) g =
      innerScan (shapedMask a g b) G (a + g + b) 0 := by
    exact innerScan_trues_entering (shapedMask a g b) G hb (a + g) g
      (fun t ht => shapedMask_getD_hi (by omega) (by omega))
  rw [s1, s2]
  simp only [Nat.zero_add]
  rw [s3]
  exact innerScan_stop_off _ G (by omega) 0

theorem innerScan_shaped_split {a g b G : ℕ} (ha : 1 ≤ a) (hGg : G < g) :
    innerScan (shapedMask a g b) G 1 0 = a + G := by
  have hN : (shapedMask a g b).length = a + g + b := shapedMask_length a g b
  have s1 : innerScan (shapedMask a g b) G 1 0 =
      innerScan (shapedMask a g b) G a 0 := by
    have := innerScan_trues (shapedMask a g b) G (a - 1) 1
      (fun t ht => shapedMask_getD_lo (by omega))
    rw [this]
    congr 1
    omega
  have s2 : innerScan (shapedMask a g b) G a 0 =
      innerScan (shapedMask a g b) G (a + G) (0 + G) := by
    exact innerScan_falses_bridge (shapedMask a g b) G G a 0
      (fun t ht => shapedMask_getD_mid (by omega) (by omega))
      (by omega) (by omega)
  rw [s1, s2]
  exact innerScan_false_stop _ G
    (shapedMask_getD_mid (by omega) (by omega)) (by omega)

theorem outerAux_off (A : List Bool) (G W : ℕ) :
    ∀ fuel i, A.length ≤ i → outerAux A G W fuel i = [] := by
  intro fuel
  induction fuel with
  | zero => intro i _; rfl
  | succ f ih =>
      intro i hi
      have h0 : A.getD i false = false := List.getD_eq_default _ _ hi
      simp only [outerAux, h0]
      simp only [Bool.false_eq_true, if_false]
      exact ih (i + 1) (by omega)

theorem outerAux_skip_falses (A : List Bool) (G W : ℕ) :
    ∀ m fuel i, (∀ t, t < m → A.getD (i + t) false = false) →
      outerAux A G W (fuel + m) i = outerAux A G W fuel (i + m) := by
  intro m
  induction m with
  | zero => intro fuel i _; rfl
  | succ mm ih =>
      intro fuel i h
      have h0 : A.getD i false = false := by
        have := h 0 (Nat.succ_pos mm); simpa using this
      have : fuel + (mm + 1) = (fuel + mm) + 1 := by omega
      rw [this]
      simp only [outerAux, h0]
      simp only [Bool.false_eq_true, if_false]
      have := ih fuel (i + 1) (fun t ht => by
        have := h (t + 1) (by omega)
        simpa [Nat.add_assoc, Nat.add_comm 1 t] using this)
      rw [this]
      congr 1
      omega

theorem outerScan_shaped (a g b G W : ℕ) (ha : 1 ≤ a) (hg : 1 ≤ g)
    (hb : 1 ≤ b) :
    outerScan (shapedMask a g b) G W =
      if g ≤ G then (if W ≤ a + g + b then [(0, a + g + b)] else [])
      else (if W ≤ a + G then [(0, a + G)] else []) ++
           (if W ≤ b then [(a + g, a + g + b)] else []) := by
  have hN : (shapedMask a g b).length = a + g + b := shapedMask_length a g b
  unfold outerScan
  rw [hN]
  have hfuel : a + g + b = (a + g + b - 1) + 1 := by omega
  nth_rewrite 1 [hfuel]
  have h0 : (shapedMask a g b).getD 0 false = true := shapedMask_getD_lo ha
  simp only [outerAux, h0, if_true]
  by_cases hcase : g ≤ G
  · rw [if_pos hcase]
    rw [innerScan_shaped_merge ha hb hcase]
    rw [outerAux_off _ G W _ (a + g + b) (by omega)]
    simp only [Nat.sub_zero, List.append_nil]
  · rw [if_neg hcase]
    push_neg at hcase
    rw [innerScan_shaped_split ha hcase]
    have hskip : outerAux (shapedMask a g b) G W (a + g + b - 1) (a + G) =
        outerAux (shapedMask a g b) G W (a + b + G - 1) (a + g) := by
      have hsum : a + g + b - 1 = (a + b + G - 1) + (g - G) := by omega
      rw [hsum]
      have := outerAux_skip_falses (shapedMask a g b) G W (g - G)
        (a + b + G - 1) (a + G)
        (fun t ht => shapedMask_getD_mid (by omega) (by omega))
      rw [this]
      congr 1
      omega
    rw [hskip]
    have hfuel2 : a + b + G - 1 = (a + b + G - 2) + 1 := by omega
    rw [hfuel2]
    have h1 : (shapedMask a g b).getD (a + g) false = true :=
      shapedMask_getD_hi (by omega) (by omega)
    simp only [outerAux, h1, if_true]
    have hinner : innerScan (shapedMask a g b) G (a + g + 1) 0 = a + g + b := by
      have := innerScan_trues (shapedMask a g b) G (b - 1) (a + g + 1)
        (fun t ht => shapedMask_getD_hi (by omega) (by omega))
      rw [this]
      have he : a + g + 1 + (b - 1) = a + g + b := by omega
      rw [he]
      exact innerScan_stop_off _ G (by omega) 0
    rw [hinner]
    rw [outerAux_off _ G W _ (a + g + b) (by omega)]
    have hsub1 : a + g + b - (a + g) = b := by omega
    have hsub2 : a + G - 0 = a + G := by omega
    rw [hsub1, hsub2]
    simp only [List.append_nil]

/-- Claim C3 (amended): on a mask that is an above run of length a, one gap
of g below bins, and an above run of length b, detect_segments' segment
formation merges into one segment when g ≤ guard_bins and splits into two
when g > guard_bins — provided the kept runs pass the min-width filter:
the merged run has width a + g + b, and in the split case the first kept
run has width a + guard_bins (the scan absorbs guard_bins trailing below
bins before giving up) and the second has width b. -/
theorem C3_guard_gap_amended (freqs psd noise : List ℚ) (a g b G W : ℕ)
    (ha : 1 ≤ a) (hg : 1 ≤ g) (hb : 1 ≤ b) :
    (g ≤ G → W ≤ a + g + b →
      (detectSegmentsFromMask freqs psd noise (shapedMask a g b) G W).length = 1) ∧
    (G < g → W ≤ a + G → W ≤ b →
      (detectSegmentsFromMask freqs psd noise (shapedMask a g b) G W).length = 2) := by
  constructor
  · intro h1 h2
    unfold detectSegmentsFromMask
    rw [List.length_map, outerScan_shaped a g b G W ha hg hb,
      if_pos h1, if_pos h2]
    rfl
  · intro h1 h2 h3
    unfold detectSegmentsFromMask
    rw [List.length_map, outerScan_shaped a g b G W ha hg hb,
      if_neg (by omega), if_pos h2, if_pos h3]
    rfl

/-- Witness for the amended C3, both branches: a = 2, b = 2, guard = 1 with
g = 1 (merged: one segment) and g = 2 (split: two segments), min_width 2. -/
theorem C3_guard_gap_amended_witness :
    (detectSegmentsFromMask [] [] [] (shapedMask 2 1 2) 1 2).length = 1 ∧
    (detectSegmentsFromMask [] [] [] (shapedMask 2 2 2) 1 2).length = 2 :=
  ⟨(C3_guard_gap_amended [] [] [] 2 1 2 1 2 (by decide) (by decide)
      (by decide)).1 (by decide) (by decide),
   (C3_guard_gap_amended [] [] [] 2 2 2 1 2 (by decide) (by decide)
      (by decide)).2 (by decide) (by decide) (by decide)⟩

/-- Counterexample for claim C3 as stated: it asserts the merge/split count
for every g, guard_bins and mask of the run-gap-run shape, but the min-width
filter can discard the parts.  With guard_bins = 0, min_width_bins = 2 and
the mask T,F,T (here produced inside detect_segments by the psd values
0 dB against a −90 dB floor, mask indices 3 and 5), g = 1 > guard_bins = 0
should yield two segments by the claim, yet detect_segments returns none;
the bare shape T,F,T through the same segment formation also returns none. -/
theorem C3_counterexample :
    (detect_segments [0, 1, 2, 3, 4, 5, 6, 7, 8]
        [-90, -90, -90, 0, -90, 0, -90, -90, -90] 10 0 2).1 = [] ∧
    (detect_segments [0, 1, 2, 3, 4, 5, 6, 7, 8]
        [-90, -90, -90, 0, -90, 0, -90, -90, -90] 10 0 2).2.1 =
      [false, false, false, true, false, true, false, false, false] ∧
    detectSegmentsFromMask [0, 1, 2] [0, -90, 0] [0, 0, 0]
      (shapedMask 1 1 1) 0 2 = [] := by
  refine ⟨by decide, by decide, by decide⟩

/-- Counterexample for claim C1 as stated: on the worked-example input,
sdrwatch.py's detect_segments sets f_center_hz from the geometric midpoint
index (start + end) // 2 = 4, i.e. 101 MHz — not the peak bin's 100 MHz the
claim asserts. -/
theorem C1_counterexample :
    (detect_segments
        [97000000, 98000000, 99000000, 100000000, 101000000, 102000000, 103000000]
        [-90, -90, -90, -40, -40, -90, -90] 10 0 2).1 =
      [⟨100000000, 101000000, 101000000, -40, -90, 50⟩] := by decide

/-- Claim C1 (amended): on the worked example (global floor, threshold 10,
guard 0, min-width 2) exactly one segment spanning indices 3-4 is returned
by both implementations, with f_low = 100 MHz, f_high = 101 MHz,
peak = −40 dB, noise = −90 dB, snr = 50 dB; sdr_watch.py's detect_segments
is peak-centered and yields f_center = 100 MHz exactly as claimed, while
sdrwatch.py's detect_segments uses the geometric run midpoint and yields
f_center = 101 MHz. -/
theorem C1_worked_example_amended :
    detect_segments_sw
        [97000000, 98000000, 99000000, 100000000, 101000000, 102000000, 103000000]
        [-90, -90, -90, -40, -40, -90, -90] 10 0 2 =
      [⟨100000000, 101000000, 100000000, -40, -90, 50⟩] ∧
    (detect_segments
        [97000000, 98000000, 99000000, 100000000, 101000000, 102000000, 103000000]
        [-90, -90, -90, -40, -40, -90, -90] 10 0 2).1 =
      [⟨100000000, 101000000, 101000000, -40, -90, 50⟩] := by
  refine ⟨by decide, by decide⟩

theorem repeatAux_succ (f : ℕ) (r : ℤ) :
    repeatAux (f + 1) r = 1 + (if r - 1 ≤ 0 then 0 else repeatAux f (r - 1)) :=
  rfl

theorem repeatAux_eval : ∀ (f : ℕ) (r : ℤ), r.toNat ≤ f →
    repeatAux (f + 1) r = max r.toNat 1 := by
  intro f
  induction f with
  | zero =>
      intro r hr
      have hc : r - 1 ≤ 0 := by omega
      rw [repeatAux_succ, if_pos hc]
      omega
  | succ ff ih =>
      intro r hr
      by_cases hc : r - 1 ≤ 0
      · rw [repeatAux_succ, if_pos hc]
        omega
      · rw [repeatAux_succ, if_neg hc]
        rw [ih (r - 1) (by omega)]
        omega

/-- Claim C6 (amended): under --repeat N the program runs exactly N full
sweep cycles when N ≥ 1; for N ≤ 0 it still runs one full cycle, because the
decrement-and-test happens only after a sweep has completed. -/
theorem C6_repeat_amended (n : ℤ) :
    (1 ≤ n → runRepeatCycles n = n.toNat) ∧
    (n ≤ 0 → runRepeatCycles n = 1) := by
  have h := repeatAux_eval n.toNat n (le_refl _)
  unfold runRepeatCycles
  rw [h]
  constructor
  · intro h1; omega
  · intro h1; omega

/-- Witness for the amended C6 at N = 3 and N = −2. -/
theorem C6_repeat_amended_witness :
    ((1 : ℤ) ≤ 3 ∧ runRepeatCycles 3 = (3 : ℤ).toNat) ∧
    ((-2 : ℤ) ≤ 0 ∧ runRepeatCycles (-2) = 1) :=
  ⟨⟨by decide, (C6_repeat_amended 3).1 (by decide)⟩,
   ⟨by decide, (C6_repeat_amended (-2)).2 (by decide)⟩⟩

/-- Counterexample for claim C6 as stated: with --repeat 0 the loop body
runs once before sweeps_remaining is decremented and tested, so one full
sweep cycle executes instead of the claimed zero. -/
theorem C6_counterexample : runRepeatCycles 0 = 1 := by decide

/-- Claim C10: when baseline_occ finds no row at the segment's center
frequency the verdict is_new is False (occ is not None and ... short
circuits); and the miss is reachable because update_baseline keys rows by
the truncated frequency (astype(int)) while the segment center is rounded:
at 100.6 Hz the stored key is 100 but the probed key is 101, so the probe
after the very update that folded the bin in still returns none. -/
theorem C10_missing_row_not_new (b : Baseline) (k : ℤ) (thr : ℚ)
    (h : baseline_occ b k = none) :
    isNewB (baseline_occ b k) thr = false ∧
    pyInt (1006/10) = 100 ∧ pyRound (1006/10) = 101 ∧
    baseline_occ (update_baseline emptyBaseline [1006/10] [-40] [true])
      (pyRound (1006/10)) = none := by
  refine ⟨by rw [h]; rfl, by decide, by decide, by decide⟩

/-- Witness for C10: the 100.6 Hz bin itself. -/
theorem C10_missing_row_not_new_witness :
    isNewB (baseline_occ (update_baseline emptyBaseline [1006/10] [-40] [true])
      101) (1/50) = false ∧
    baseline_occ (update_baseline emptyBaseline [1006/10] [-40] [true]) 101 =
      none :=
  ⟨(C10_missing_row_not_new _ 101 (1/50) (by decide)).1, by decide⟩

/-- Claim C2: for each accepted segment, is_new is computed from ema_occ at
f_center_hz read after the window's baseline update (the update runs before
the segment loop), so is_new = (post-update ema_occ < threshold) whenever
the row is found; in particular a bin with prior ema_occ = 0.01 observed
occupied updates to 0.95·0.01 + 0.05·1 = 0.0595, which at the default
threshold 0.02 is not flagged as new. -/
theorem C2_is_new_post_update (b : Baseline) (freqs psd : List ℚ)
    (mask : List Bool) (a thr : ℚ) (k : ℤ) (v : ℚ)
    (h : baseline_occ (update_baseline b freqs psd mask a) k = some v) :
    isNewB (baseline_occ (update_baseline b freqs psd mask a) k) thr =
        decide (v < thr) ∧
    baseline_occ (update_baseline (insertB 100 ⟨1/100, -60, 5, 2⟩ emptyBaseline)
        [100] [-40] [true]) 100 = some (119/2000) ∧
    isNewB (baseline_occ (update_baseline
        (insertB 100 ⟨1/100, -60, 5, 2⟩ emptyBaseline)
        [100] [-40] [true]) 100) (1/50) = false := by
  refine ⟨by rw [h]; rfl, by decide, by decide⟩

/-- Witness for C2 at the 0.01-EMA bin observed occupied. -/
theorem C2_is_new_post_update_witness :
    isNewB (baseline_occ (update_baseline
        (insertB 100 ⟨1/100, -60, 5, 2⟩ emptyBaseline)
        [100] [-40] [true]) 100) (1/50) =
      decide ((119/2000 : ℚ) < 1/50) :=
  (C2_is_new_post_update (insertB 100 ⟨1/100, -60, 5, 2⟩ emptyBaseline)
    [100] [-40] [true] (1/20) (1/50) 100 (119/2000) (by decide)).1

theorem lookupB_insertB_self (k : ℤ) (v : Row) :
    ∀ b : Baseline, lookupB (insertB k v b) k = some v := by
  intro b
  induction b with
  | nil => simp [insertB, lookupB]
  | cons hd t ih =>
      by_cases hk : hd.1 = k
      · simp [insertB, hk, lookupB]
      · simp only [insertB]
        rw [if_neg hk]
        simp only [lookupB]
        rw [if_neg hk]
        exact ih

theorem lookupB_insertB_other (k k' : ℤ) (v : Row) (h : k' ≠ k) :
    ∀ b : Baseline, lookupB (insertB k v b) k' = lookupB b k' := by
  intro b
  induction b with
  | nil =>
      simp only [insertB, lookupB]
      rw [if_neg (fun he : k = k' => h he.symm)]
  | cons hd t ih =>
      by_cases hk : hd.1 = k
      · simp only [insertB]
        rw [if_pos hk]
        simp only [lookupB]
        rw [if_neg (fun he : k = k' => h he.symm), if_neg (by omega : ¬hd.1 = k')]
      · simp only [insertB]
        rw [if_neg hk]
        simp only [lookupB]
        by_cases hk2 : hd.1 = k'
        · rw [if_pos hk2, if_pos hk2]
        · rw [if_neg hk2, if_neg hk2]
          exact ih

theorem rowInv_updateRow {a : ℚ} (ha0 : 0 ≤ a) (ha1 : a ≤ 1)
    (prev : Option Row) (p : ℚ) (occ : Bool)
    (h : ∀ r, prev = some r → RowInv r) :
    RowInv (updateRow prev p occ a) := by
  cases prev with
  | none =>
      cases occ <;> simp [updateRow, RowInv]
  | some r =>
      obtain ⟨h0, h1, h2⟩ := h r rfl
      have hmul0 : 0 ≤ (1 - a) * r.ema_occ :=
        mul_nonneg (by linarith) h0
      have hmul1 : (1 - a) * r.ema_occ ≤ 1 - a :=
        mul_le_of_le_one_right (by linarith) h1
      cases occ <;> simp [updateRow, RowInv] <;>
        refine ⟨by linarith, by linarith, by omega⟩

theorem baselineInv_insert_update {b : Baseline} (hb : BaselineInv b)
    {a : ℚ} (ha0 : 0 ≤ a) (ha1 : a ≤ 1) (k : ℤ) (p : ℚ) (occ : Bool) :
    BaselineInv (insertB k (updateRow (lookupB b k) p occ a) b) := by
  intro k' r hl
  by_cases hk : k' = k
  · subst hk
    rw [lookupB_insertB_self] at hl
    cases hl
    exact rowInv_updateRow ha0 ha1 _ p occ (fun r2 h2 => hb k' r2 h2)
  · rw [lookupB_insertB_other _ _ _ hk] at hl
    exact hb k' r hl

theorem baselineInv_foldl {a : ℚ} (ha0 : 0 ≤ a) (ha1 : a ≤ 1) :
    ∀ (es : List (ℤ × ℚ × Bool)) (b : Baseline), BaselineInv b →
      BaselineInv (es.foldl
        (fun acc e => insertB e.1 (updateRow (lookupB acc e.1) e.2.1 e.2.2 a) acc)
        b) := by
  intro es
  induction es with
  | nil => intro b hb; exact hb
  | cons e t ih =>
      intro b hb
      exact ih _ (baselineInv_insert_update hb ha0 ha1 e.1 e.2.1 e.2.2)

theorem baselineInv_update_baseline {b : Baseline} (hb : BaselineInv b)
    {a : ℚ} (ha0 : 0 ≤ a) (ha1 : a ≤ 1) (freqs psd : List ℚ)
    (mask : List Bool) : BaselineInv (update_baseline b freqs psd mask a) :=
  baselineInv_foldl ha0 ha1 _ b hb

theorem baselineInv_empty : BaselineInv emptyBaseline := by
  intro k r h
  simp [emptyBaseline, lookupB] at h

theorem mono_insert_update (b : Baseline) (k : ℤ) {r : Row}
    (h : lookupB b k = some r) (k0 : ℤ) (p : ℚ) (occ : Bool) (a : ℚ) :
    ∃ r2, lookupB (insertB k0 (updateRow (lookupB b k0) p occ a) b) k = some r2 ∧
      r.total_obs ≤ r2.total_obs ∧ r.hits ≤ r2.hits := by
  by_cases hk : k = k0
  · subst hk
    refine ⟨updateRow (lookupB b k) p occ a, lookupB_insertB_self k _ b, ?_⟩
    rw [h]
    cases occ <;> simp [updateRow]
  · exact ⟨r, by rw [lookupB_insertB_other _ _ _ hk]; exact h, le_refl _, le_refl _⟩

theorem mono_foldl (a : ℚ) :
    ∀ (es : List (ℤ × ℚ × Bool)) (b : Baseline) (k : ℤ) (r : Row),
      lookupB b k = some r →
      ∃ r2, lookupB (es.foldl
          (fun acc e => insertB e.1 (updateRow (lookupB acc e.1) e.2.1 e.2.2 a) acc)
          b) k = some r2 ∧
        r.total_obs ≤ r2.total_obs ∧ r.hits ≤ r2.hits := by
  intro es
  induction es with
  | nil => intro b k r h; exact ⟨r, h, le_refl _, le_refl _⟩
  | cons e t ih =>
      intro b k r h
      obtain ⟨r1, h1, h2, h3⟩ := mono_insert_update b k h e.1 e.2.1 e.2.2 a
      obtain ⟨r2, g1, g2, g3⟩ := ih _ k r1 h1
      exact ⟨r2, g1, le_trans h2 g2, le_trans h3 g3⟩

theorem mono_applyWindows (a : ℚ) :
    ∀ (ws : List Window) (b : Baseline) (k : ℤ) (r : Row),
      lookupB b k = some r →
      ∃ r2, lookupB (applyWindows b ws a) k = some r2 ∧
        r.total_obs ≤ r2.total_obs ∧ r.hits ≤ r2.hits := by
  intro ws
  induction ws with
  | nil => intro b k r h; exact ⟨r, h, le_refl _, le_refl _⟩
  | cons w t ih =>
      intro b k r h
      obtain ⟨r1, h1, h2, h3⟩ := mono_foldl a _ b k r h
      obtain ⟨r2, g1, g2, g3⟩ := ih _ k r1 h1
      exact ⟨r2, g1, le_trans h2 g2, le_trans h3 g3⟩

theorem baselineInv_applyWindows {a : ℚ} (ha0 : 0 ≤ a) (ha1 : a ≤ 1) :
    ∀ (ws : List Window) (b : Baseline), BaselineInv b →
      BaselineInv (applyWindows b ws a) := by
  intro ws
  induction ws with
  | nil => intro b hb; exact hb
  | cons w t ih =>
      intro b hb
      simp only [applyWindows, List.foldl_cons] at *
      exact ih _ (baselineInv_update_baseline hb ha0 ha1 w.1 w.2.1 w.2.2)

theorem occupiedIter_step (a p : ℚ) (r : Row) (m : ℕ) :
    (occupiedIter a p r (m + 1)).ema_occ =
      (1 - a) * (occupiedIter a p r m).ema_occ + a := by
  simp [occupiedIter, updateRow]

theorem occupiedIter_dist (a p : ℚ) (r : Row) :
    ∀ n : ℕ, 1 - (occupiedIter a p r n).ema_occ = (1 - a) ^ n * (1 - r.ema_occ) := by
  intro n
  induction n with
  | zero => simp [occupiedIter]
  | succ m ih =>
      rw [occupiedIter_step]
      calc 1 - ((1 - a) * (occupiedIter a p r m).ema_occ + a)
          = (1 - a) * (1 - (occupiedIter a p r m).ema_occ) := by ring
        _ = (1 - a) * ((1 - a) ^ m * (1 - r.ema_occ)) := by rw [ih]
        _ = (1 - a) ^ (m + 1) * (1 - r.ema_occ) := by ring

theorem occupiedIter_mono {a : ℚ} (ha0 : 0 ≤ a) (ha1 : a ≤ 1) (p : ℚ)
    {r : Row} (hr : r.ema_occ ≤ 1) (n : ℕ) :
    (occupiedIter a p r n).ema_occ ≤ (occupiedIter a p r (n + 1)).ema_occ := by
  have hd := occupiedIter_dist a p r n
  have hpow : 0 ≤ (1 - a) ^ n * (1 - r.ema_occ) :=
    mul_nonneg (pow_nonneg (by linarith) n) (by linarith)
  have h1 : 0 ≤ 1 - (occupiedIter a p r n).ema_occ := by rw [hd]; exact hpow
  rw [occupiedIter_step]
  nlinarith [mul_nonneg ha0 h1]

/-- Claim C8: starting from an empty baseline, after any sequence of
update_baseline calls every stored row has ema_occ in [0,1] and
hits ≤ total_obs; total_obs and hits are non-decreasing along any further
updates; first sight stores ema_occ = occ, ema_power_db = p,
total_obs = 1, hits = occ; and a bin observed occupied on every window has
a non-decreasing ema_occ whose distance to 1 shrinks geometrically,
1 − ema after n occupied updates = (1−α)^n · (1 − ema before). -/
theorem C8_baseline_invariants (a : ℚ) (ha0 : 0 ≤ a) (ha1 : a ≤ 1) :
    (∀ ws : List Window, BaselineInv (applyWindows emptyBaseline ws a)) ∧
    (∀ (b : Baseline) (ws : List Window) (k : ℤ) (r : Row),
      lookupB b k = some r →
      ∃ r2, lookupB (applyWindows b ws a) k = some r2 ∧
        r.total_obs ≤ r2.total_obs ∧ r.hits ≤ r2.hits) ∧
    (∀ (f p : ℚ) (occ : Bool),
      lookupB (update_baseline emptyBaseline [f] [p] [occ] a) (pyInt f) =
        some ⟨if occ then 1 else 0, p, 1, if occ then 1 else 0⟩) ∧
    (∀ (p : ℚ) (r : Row), r.ema_occ ≤ 1 → ∀ n : ℕ,
      (occupiedIter a p r n).ema_occ ≤ (occupiedIter a p r (n + 1)).ema_occ) ∧
    (∀ (p : ℚ) (r : Row) (n : ℕ),
      1 - (occupiedIter a p r n).ema_occ = (1 - a) ^ n * (1 - r.ema_occ)) := by
  refine ⟨?_, ?_, ?_, ?_, ?_⟩
  · intro ws
    exact baselineInv_applyWindows ha0 ha1 ws emptyBaseline baselineInv_empty
  · intro b ws k r h
    exact mono_applyWindows a ws b k r h
  · intro f p occ
    simp [update_baseline, emptyBaseline, lookupB, insertB, updateRow]
  · intro p r hr n
    exact occupiedIter_mono ha0 ha1 p hr n
  · intro p r n
    exact occupiedIter_dist a p r n

/-- Witness for C8 at the default alpha 0.05 = 1/20. -/
theorem C8_baseline_invariants_witness :
    ((0 : ℚ) ≤ 1/20 ∧ (1/20 : ℚ) ≤ 1) ∧
    lookupB (update_baseline emptyBaseline [100] [-40] [true] (1/20))
      (pyInt 100) = some ⟨if true then 1 else 0, -40, 1, if true then 1 else 0⟩ ∧
    1 - (occupiedIter (1/20) (-40) ⟨0, 0, 1, 0⟩ 3).ema_occ =
      (1 - 1/20) ^ 3 * (1 - (⟨0, 0, 1, 0⟩ : Row).ema_occ) := by
  refine ⟨⟨by norm_num, by norm_num⟩, ?_, ?_⟩
  · exact (C8_baseline_invariants (1/20) (by norm_num) (by norm_num)).2.2.1
      100 (-40) true
  · exact (C8_baseline_invariants (1/20) (by norm_num) (by norm_num)).2.2.2.2
      (-40) ⟨0, 0, 1, 0⟩ 3

theorem sortQ_replicate (x : ℚ) : ∀ m : ℕ, sortQ (List.replicate m x) = List.replicate m x := by
  intro m
  induction m with
  | zero => rfl
  | succ mm ih =>
      have hstep : sortQ (List.replicate (mm + 1) x) =
          insertSorted x (sortQ (List.replicate mm x)) := rfl
      rw [hstep, ih]
      cases mm with
      | zero => rfl
      | succ m2 =>
          simp only [List.replicate_succ, insertSorted, if_pos (le_refl x)]

theorem npMedian_replicate (x : ℚ) {m : ℕ} (hm : 1 ≤ m) :
    npMedian (List.replicate m x) = x := by
  unfold npMedian
  rw [sortQ_replicate]
  simp only [List.length_replicate]
  by_cases hpar : m % 2 = 1
  · rw [if_pos hpar, getD_replicate_of_lt _ _ (by omega)]
  · rw [if_neg hpar, getD_replicate_of_lt _ _ (by omega),
      getD_replicate_of_lt _ _ (by omega)]
    ring

theorem npQuantile_replicate (x : ℚ) {m : ℕ} (hm : 1 ≤ m) {q : ℚ}
    (h0 : 0 ≤ q) (h1 : q < 1) : npQuantile (List.replicate m x) q = x := by
  unfold npQuantile
  rw [sortQ_replicate]
  simp only [List.length_replicate]
  rcases Nat.lt_or_ge m 2 with hm1 | hm2
  · have he : m = 1 := by omega
    subst he
    norm_num
  · have hcast : (0 : ℚ) < (m : ℚ) - 1 := by
      have : (2 : ℚ) ≤ (m : ℚ) := by exact_mod_cast hm2
      linarith
    have hh0 : 0 ≤ q * ((m : ℚ) - 1) := mul_nonneg h0 (by linarith)
    have hh1 : q * ((m : ℚ) - 1) < (m : ℚ) - 1 :=
      mul_lt_of_lt_one_left hcast h1
    have hfl0 : 0 ≤ ⌊q * ((m : ℚ) - 1)⌋ := Int.floor_nonneg.mpr hh0
    have hlo : (⌊q * ((m : ℚ) - 1)⌋).toNat < m - 1 := by
      have h2 : (⌊q * ((m : ℚ) - 1)⌋ : ℚ) ≤ q * ((m : ℚ) - 1) := Int.floor_le _
      have h3 : (⌊q * ((m : ℚ) - 1)⌋ : ℚ) < (m : ℚ) - 1 := lt_of_le_of_lt h2 hh1
      have h4 : ⌊q * ((m : ℚ) - 1)⌋ < (m : ℤ) - 1 := by exact_mod_cast h3
      omega
    rw [getD_replicate_of_lt _ _ (by omega), getD_replicate_of_lt _ _ (by omega)]
    ring

/-- Claim C4 (amended): cfar_os_mask has no small-input fallback — when the
psd is shorter than one CFAR window it edge-pads and still computes the
per-bin order-statistic threshold (on a constant psd every bin stays below
threshold for any positive alpha, for any train/guard including those with
window wider than the input).  The only degenerate case is a window of
width ≤ 1 (train = guard = 0), and its fallback noise is the plain median
of psd_db, not the median + 1.4826·MAD robust floor: a bin is above iff
psd_db > median + alpha_db. -/
theorem C4_cfar_amended (e : ℚ → ℚ) :
    (∀ (psd : List ℚ) (q alpha : ℚ),
      cfar_os_mask e psd 0 0 q alpha =
        psd.map (fun x => decide (npMedian psd + alpha < x))) ∧
    (∀ (N train guard : ℕ) (c q alpha : ℚ),
      1 ≤ N → 0 < alpha → 0 < e c → 1 < e alpha → (0 < train ∨ guard = 0) →
      cfar_os_mask e (List.replicate N c) train guard q alpha =
        List.replicate N false) := by
  constructor
  · intro psd q alpha
    by_cases h0 : psd.length = 0
    · rw [List.length_eq_zero] at h0
      subst h0
      rfl
    · simp [cfar_os_mask, h0]
  · intro N train guard c q alpha hN halpha hec healpha hdeg
    by_cases htr : 0 < train
    · have h0 : ¬(List.replicate N c).length = 0 := by simp; omega
      have hwin : ¬(2 * train + 2 * guard + 1 ≤ 1) := by omega
      simp only [cfar_os_mask, h0, if_false, hwin, List.map_replicate,
        List.length_replicate]
      rw [getD_replicate_of_lt _ _ (by omega),
        getD_replicate_of_lt _ _ (by omega)]
      rw [← List.replicate_add, ← List.replicate_add]
      set M := train + guard + N + (train + guard) with hM
      rw [if_neg (by omega : ¬N = 0)]
      refine List.eq_replicate_iff.mpr ⟨by simp, ?_⟩
      intro v hv
      obtain ⟨i, hi, hfv⟩ := List.mem_map.mp hv
      have hiN : i < N := List.mem_range.mp hi
      have hdrop : (List.replicate M (e c)).drop i = List.replicate (M - i) (e c) :=
        List.drop_replicate _ _ _
      have htake : (List.replicate (M - i) (e c)).take (2 * train + 2 * guard + 1) =
          List.replicate (2 * train + 2 * guard + 1) (e c) := by
        rw [List.take_replicate]
        congr 1
        omega
      rw [hdrop, htake] at hfv
      have hcells : (List.replicate (2 * train + 2 * guard + 1) (e c)).take train ++
          (List.replicate (2 * train + 2 * guard + 1) (e c)).drop
            (train + 2 * guard + 1) =
          List.replicate (2 * train) (e c) := by
        rw [List.take_replicate, List.drop_replicate, ← List.replicate_add]
        congr 1
        omega
      rw [hcells] at hfv
      have hq : npQuantile (List.replicate (2 * train) (e c))
          (max (1/1000000) (min q (1 - 1/1000000))) = e c := by
        apply npQuantile_replicate _ (by omega)
        · exact le_trans (by norm_num) (le_max_left _ _)
        · apply max_lt (by norm_num)
          exact lt_of_le_of_lt (min_le_right _ _) (by norm_num)
      rw [hq, getD_replicate_of_lt _ _ hiN] at hfv
      have hlt : ¬(e c * e alpha < e c) := by nlinarith
      rw [← hfv]
      exact decide_eq_false hlt
    · have htrain0 : train = 0 := by omega
      have hguard0 : guard = 0 := by
        rcases hdeg with h | h
        · omega
        · exact h
      subst htrain0
      subst hguard0
      have h0 : ¬(List.replicate N c).length = 0 := by simp; omega
      simp only [cfar_os_mask, h0, if_false]
      norm_num
      exact Or.inr (by rw [npMedian_replicate c hN]; linarith)

/-- Witness for the amended C4: a constant 0 dB psd of 4 bins with
train = 2, guard = 0 (window 5 > 4 bins) yields an all-false mask; the
conversion parameter is certified at 0 and 10 dB elsewhere
(C4_counterexample). -/
theorem C4_cfar_amended_witness :
    (0 < (10 : ℚ) ∧ 0 < exp10tens 0 ∧ 1 < exp10tens 10) ∧
    cfar_os_mask exp10tens (List.replicate 4 0) 2 0 (3/4) 10 =
      List.replicate 4 false :=
  ⟨⟨by norm_num, by decide, by decide⟩,
   (C4_cfar_amended exp10tens).2 4 2 0 0 (3/4) 10 (by decide) (by norm_num)
     (by decide) (by decide) (Or.inl (by decide))⟩

/-- Counterexample for claim C4 as stated: psd_db = [0,0,0,30] with
train = 2, guard = 0 has only 4 < 2·2 + 2·0 + 1 bins, yet cfar_os_mask does
not fall back to the global robust floor: the claimed fallback mask flags
bin 3 (30 dB against floor 0 + threshold 10) while the actual CFAR mask,
computed over the edge-padded windows, flags nothing.  The linear powers
fed through the conversion parameter are certified against the real
10^(x/10) at every dB value used (0, 30, and alpha 10). -/
theorem C4_counterexample :
    cfar_os_mask exp10tens [0, 0, 0, 30] 2 0 (3/4) 10 =
      [false, false, false, false] ∧
    globalFloorAbove [0, 0, 0, 30] 10 = [false, false, false, true] ∧
    ([0, 0, 0, 30] : List ℚ).length < 2 * 2 + 2 * 0 + 1 ∧
    ((exp10tens 0 : ℚ) : ℝ) = (10 : ℝ) ^ ((0 : ℝ) / 10) ∧
    ((exp10tens 30 : ℚ) : ℝ) = (10 : ℝ) ^ ((30 : ℝ) / 10) ∧
    ((exp10tens 10 : ℚ) : ℝ) = (10 : ℝ) ^ ((10 : ℝ) / 10) := by
  refine ⟨by decide, by decide, by decide, ?_, ?_, ?_⟩
  · rw [show exp10tens 0 = 1 from by decide]
    norm_num
  · rw [show exp10tens 30 = 1000 from by decide]
    rw [show ((30 : ℝ) / 10) = ((3 : ℕ) : ℝ) from by norm_num,
      Real.rpow_natCast]
    norm_num
  · rw [show exp10tens 10 = 10 from by decide]
    rw [show ((10 : ℝ) / 10) = (1 : ℝ) from by norm_num, Real.rpow_one]
    norm_num

theorem collectSegs_full (samples : List (ℚ × ℚ)) (seg : ℕ) :
    ∀ starts : List ℕ, (∀ s ∈ starts, s + seg ≤ samples.length) →
      collectSegs samples seg starts =
        starts.map (fun s => (samples.drop s).take seg) := by
  intro starts
  induction starts with
  | nil => intro _; rfl
  | cons s rest ih =>
      intro h
      have hs : s + seg ≤ samples.length := h s (by simp)
      have hlen : ((samples.drop s).take seg).length = seg := by
        rw [List.length_take, List.length_drop]
        omega
      simp only [collectSegs, hlen]
      rw [if_neg (by omega : ¬seg < seg)]
      rw [ih (fun x hx => h x (by simp [hx]))]
      rfl

theorem range'_zero_step (step : ℕ) :
    ∀ (cnt s : ℕ), List.range' s cnt step =
      (List.range cnt).map (fun i => s + i * step) := by
  intro cnt
  induction cnt with
  | zero => intro s; rfl
  | succ c ih =>
      intro s
      rw [List.range'_succ, ih (s + step), List.range_succ_eq_map]
      simp only [List.map_cons, List.map_map, Nat.zero_mul, Nat.add_zero]
      congr 1
      apply List.map_congr_left
      intro i _
      simp only [Function.comp_apply, Nat.succ_eq_add_one]
      ring

theorem sdrwatchWindows_eq (samples : List (ℚ × ℚ)) {n avg : ℕ}
    (hlen : samples.length = n * avg) :
    sdrwatchWindows samples n avg =
      (List.range avg).map (fun i => (samples.drop (i * n)).take n) := by
  unfold sdrwatchWindows nonOverlapStarts
  rw [collectSegs_full]
  · rw [List.map_map]
    rfl
  · intro s hs
    obtain ⟨i, hi, hv⟩ := List.mem_map.mp hs
    have hiavg : i < avg := List.mem_range.mp hi
    subst hv
    rw [hlen]
    calc i * n + n = (i + 1) * n := by ring
      _ ≤ avg * n := Nat.mul_le_mul_right n (by omega)
      _ = n * avg := Nat.mul_comm avg n

theorem swWindows_eq (samples : List (ℚ × ℚ)) {n avg m : ℕ}
    (hm : 1 ≤ m) (hn : n = 2 * m) (havg : 1 ≤ avg)
    (hlen : samples.length = n * avg) :
    swWindows samples n =
      (List.range (2 * avg - 1)).map (fun i => (samples.drop (i * (n / 2))).take n) := by
  obtain ⟨A, rfl⟩ : ∃ A, avg = A + 1 := ⟨avg - 1, by omega⟩
  have hstep : n / 2 = m := by omega
  have hL : samples.length = 2 * (m * A) + 2 * m := by rw [hlen, hn]; ring
  have hbound : max (samples.length - n + 1) 1 = 2 * (m * A) + 1 := by
    rw [hL, hn]
    omega
  have hcnt : 2 * (A + 1) - 1 = 2 * A + 1 := by omega
  unfold swWindows swStarts
  simp only []
  rw [hstep, hbound, hcnt]
  have hnum : 2 * (m * A) + 1 + m - 1 = (2 * A + 1) * m := by
    have h2 : (2 * A + 1) * m = 2 * (m * A) + m := by ring
    omega
  rw [hnum, Nat.mul_div_cancel _ (by omega : 0 < m)]
  rw [range'_zero_step]
  rw [collectSegs_full]
  · rw [List.map_map]
    apply List.map_congr_left
    intro i _
    simp only [Function.comp_apply, Nat.zero_add]
  · intro x hx
    obtain ⟨i, hi, hv⟩ := List.mem_map.mp hx
    have hicnt : i < 2 * A + 1 := List.mem_range.mp hi
    subst hv
    rw [hL, hn]
    have h1 : i * m ≤ 2 * A * m := Nat.mul_le_mul_right m (by omega)
    have h2 : 2 * A * m = 2 * (m * A) := by ring
    omega

theorem perSegPsd_length {n : ℕ} (fs : ℚ) (hann : ℕ → List ℚ)
    (fftF : List (ℚ × ℚ) → List (ℚ × ℚ))
    (hfft : ∀ l, (fftF l).length = l.length)
    (hhann : (hann n).length = n) {x : List (ℚ × ℚ)} (hx : x.length = n) :
    (perSegPsd fs n hann fftF x).length = n := by
  unfold perSegPsd fftshiftL
  rw [List.length_map, List.length_append, List.length_drop, List.length_take,
    hfft, List.length_zipWith, hhann, hx]
  omega

theorem meanCols_length {n : ℕ} :
    ∀ (t : List (List ℚ)) (h : List ℚ), h.length = n →
      (∀ r ∈ t, r.length = n) →
      ((t.foldl (fun acc r => List.zipWith (· + ·) acc r) h).map
        (fun s => s / ((t.length + 1 : ℕ) : ℚ))).length = n := by
  intro t
  induction t with
  | nil => intro h hh _; simpa using hh
  | cons r rest ih =>
      intro h hh hr
      simp only [List.foldl_cons]
      have := ih (List.zipWith (· + ·) h r)
        (by rw [List.length_zipWith, hh, hr r (by simp)]; omega)
        (fun x hx => hr x (by simp [hx]))
      simpa using this

theorem linspaceQ_length (a b : ℚ) (n : ℕ) : (linspaceQ a b n).length = n := by
  unfold linspaceQ
  rw [List.length_map, List.length_range]

theorem linspaceQ_getD (a b : ℚ) (n : ℕ) {k : ℕ} (hk : k < n) :
    (linspaceQ a b n).getD k 0 = a + (k : ℚ) * ((b - a) / (n : ℚ)) := by
  have hl : k < (linspaceQ a b n).length := by
    rw [linspaceQ_length]
    exact hk
  rw [List.getD_eq_getElem _ _ hl]
  unfold linspaceQ
  simp only [List.getElem_map, List.getElem_range]

theorem linspaceQ_chain {a b : ℚ} (n : ℕ) (h : a < b) (hn : 0 < n) :
    List.Chain' (· < ·) (linspaceQ a b n) := by
  unfold linspaceQ
  rw [List.chain'_map, List.chain'_iff_get]
  intro i hi
  simp only [List.get_eq_getElem, List.getElem_range]
  have hstep : 0 < (b - a) / (n : ℚ) := by
    apply div_pos (by linarith)
    exact_mod_cast hn
  have : (i : ℚ) < ((i + 1 : ℕ) : ℚ) := by exact_mod_cast Nat.lt_succ_self i
  nlinarith

theorem meanCols_length_all {n : ℕ} (ls : List (List ℚ)) (hne : ls ≠ [])
    (h : ∀ r ∈ ls, r.length = n) : (meanCols ls).length = n := by
  cases ls with
  | nil => exact absurd rfl hne
  | cons hd t =>
      unfold meanCols
      exact meanCols_length t hd (h hd (by simp)) (fun r hr => h r (by simp [hr]))

/-- Claim C5 (amended): compute_psd_db's fallback pipeline over
fft_size·avg samples extracts Hann-windowed, scaled, averaged, shifted
per-segment periodograms and a centered ascending frequency axis of
spacing sample_rate/fft_size; but sdrwatch.py's segmentation is
non-overlapping (stride fft_size; its SciPy branch likewise passes
noverlap = 0), while only sdr_watch.py's uses the claimed 50% overlap
(stride fft_size // 2). -/
theorem C5_psd_amended (samples : List (ℚ × ℚ)) (fs : ℚ) (n avg : ℕ)
    (hann : ℕ → List ℚ) (fftF : List (ℚ × ℚ) → List (ℚ × ℚ))
    (log10 : ℚ → ℚ) (hn : 2 ≤ n) (heven : 2 ∣ n) (havg : 1 ≤ avg)
    (hlen : samples.length = n * avg)
    (hfft : ∀ l, (fftF l).length = l.length)
    (hhann : (hann n).length = n) (hfs : 0 < fs) :
    sdrwatchWindows samples n avg =
      (List.range avg).map (fun i => (samples.drop (i * n)).take n) ∧
    swWindows samples n =
      (List.range (2 * avg - 1)).map
        (fun i => (samples.drop (i * (n / 2))).take n) ∧
    (compute_psd_db samples fs n avg hann fftF log10).1.length = n ∧
    (compute_psd_db samples fs n avg hann fftF log10).2.length = n ∧
    (∀ k, k < n →
      (compute_psd_db samples fs n avg hann fftF log10).1.getD k 0 =
        -(fs/2) + (k : ℚ) * (fs / (n : ℚ))) ∧
    List.Chain' (· < ·) (compute_psd_db samples fs n avg hann fftF log10).1 ∧
    (compute_psd_db samples fs n avg hann fftF log10).1.getD (n / 2) 0 = 0 ∧
    (compute_psd_db samples fs n avg hann fftF log10).2 =
      (meanCols ((sdrwatchWindows samples n avg).map
        (perSegPsd fs n hann fftF))).map (db10q log10) := by
  obtain ⟨m, hnm⟩ := heven
  have hm : 1 ≤ m := by omega
  have hW := sdrwatchWindows_eq samples hlen
  have hSW := swWindows_eq samples hm hnm havg hlen
  have hrows : ∀ r ∈ (sdrwatchWindows samples n avg).map
      (perSegPsd fs n hann fftF), r.length = n := by
    intro r hr
    obtain ⟨w, hw, hv⟩ := List.mem_map.mp hr
    rw [hW] at hw
    obtain ⟨i, hi, hwv⟩ := List.mem_map.mp hw
    have hiavg : i < avg := List.mem_range.mp hi
    have hwlen : w.length = n := by
      rw [← hwv, List.length_take, List.length_drop, hlen]
      have : i * n + n ≤ n * avg := by
        calc i * n + n = (i + 1) * n := by ring
          _ ≤ avg * n := Nat.mul_le_mul_right n (by omega)
          _ = n * avg := Nat.mul_comm avg n
      omega
    rw [← hv]
    exact perSegPsd_length fs hann fftF hfft hhann hwlen
  have hne : ((sdrwatchWindows samples n avg).map
      (perSegPsd fs n hann fftF)).isEmpty = false := by
    rw [hW]
    obtain ⟨A, rfl⟩ : ∃ A, avg = A + 1 := ⟨avg - 1, by omega⟩
    rw [List.range_succ_eq_map]
    rfl
  have hmaplen : ((sdrwatchWindows samples n avg).map
      (perSegPsd fs n hann fftF)) ≠ [] := by
    intro hcon
    rw [hcon] at hne
    simp at hne
  have hpsdlen : (meanCols ((sdrwatchWindows samples n avg).map
      (perSegPsd fs n hann fftF))).length = n :=
    meanCols_length_all _ hmaplen hrows
  have hceq : compute_psd_db samples fs n avg hann fftF log10 =
      (linspaceQ (-(fs/2)) (fs/2) n,
       (meanCols ((sdrwatchWindows samples n avg).map
         (perSegPsd fs n hann fftF))).map (db10q log10)) := by
    simp only [compute_psd_db, hne, Bool.false_eq_true, if_false,
      List.length_map, hpsdlen]
  have hn0 : 0 < n := by omega
  have hfrange : fs / 2 - -(fs / 2) = fs := by ring
  refine ⟨hW, hSW, ?_, ?_, ?_, ?_, ?_, ?_⟩
  · rw [hceq]
    exact linspaceQ_length _ _ n
  · rw [hceq]
    simp only [List.length_map]
    exact hpsdlen
  · intro k hk
    rw [hceq]
    simp only []
    rw [linspaceQ_getD _ _ _ hk, hfrange]
  · rw [hceq]
    exact linspaceQ_chain n (by linarith) hn0
  · rw [hceq]
    simp only []
    rw [linspaceQ_getD _ _ _ (by omega : n / 2 < n), hfrange]
    have hm0 : ((m : ℚ)) ≠ 0 := by
      have : (0 : ℚ) < (m : ℚ) := by exact_mod_cast hm
      linarith
    have hhalf : n / 2 = m := by omega
    rw [hhalf, hnm]
    push_cast
    field_simp
    ring
  · rw [hceq]

/-- Witness for the amended C5: four samples, fft_size 2, avg 2,
identity FFT and log, constant window. -/
theorem C5_psd_amended_witness :
    ((4:ℕ) = 2 * 2 ∧ (0:ℚ) < 1) ∧
    sdrwatchWindows [((1:ℚ),(0:ℚ)), (2,0), (3,0), (4,0)] 2 2 =
      (List.range 2).map
        (fun i => (([((1:ℚ),(0:ℚ)), (2,0), (3,0), (4,0)]).drop (i * 2)).take 2) ∧
    List.Chain' (· < ·)
      (compute_psd_db [((1:ℚ),(0:ℚ)), (2,0), (3,0), (4,0)] 1 2 2
        (fun k => List.replicate k 1) id id).1 ∧
    (compute_psd_db [((1:ℚ),(0:ℚ)), (2,0), (3,0), (4,0)] 1 2 2
      (fun k => List.replicate k 1) id id).1.getD (2 / 2) 0 = 0 := by
  have h := C5_psd_amended [((1:ℚ),(0:ℚ)), (2,0), (3,0), (4,0)] 1 2 2
    (fun k => List.replicate k 1) id id (by decide) (by decide) (by decide)
    (by decide) (fun l => rfl) (by decide) (by norm_num)
  exact ⟨⟨by decide, by norm_num⟩, h.1, h.2.2.2.2.2.1, h.2.2.2.2.2.2.1⟩

/-- Counterexample for claim C5 as stated: sdrwatch.py's compute_psd_db
splits the samples into consecutive, non-overlapping fft_size-length
segments (start = i · fft_size), not the claimed 50%-overlapping ones;
on four samples with fft_size 2 it forms 2 windows where the claimed
splitting (and sdr_watch.py's actual one) forms 3. -/
theorem C5_counterexample :
    sdrwatchWindows [((1:ℚ),(0:ℚ)), (2,0), (3,0), (4,0)] 2 2 =
      [[(1,0),(2,0)], [(3,0),(4,0)]] ∧
    specFiftyPercentWindows [((1:ℚ),(0:ℚ)), (2,0), (3,0), (4,0)] 2 =
      [[(1,0),(2,0)], [(2,0),(3,0)], [(3,0),(4,0)]] ∧
    swWindows [((1:ℚ),(0:ℚ)), (2,0), (3,0), (4,0)] 2 =
      [[(1,0),(2,0)], [(2,0),(3,0)], [(3,0),(4,0)]] ∧
    sdrwatchWindows [((1:ℚ),(0:ℚ)), (2,0), (3,0), (4,0)] 2 2 ≠
      specFiftyPercentWindows [((1:ℚ),(0:ℚ)), (2,0), (3,0), (4,0)] 2 := by
  refine ⟨by decide, by decide, by decide, by decide⟩

end SDRWatch
